import Mathlib

/-!
Verification of the JSON-Schema-Builder core (src/json-schema-builder/src/App.tsx).

The embedding mirrors the TypeScript source: `FieldNode` (the source calls it `Field`, a name Lean reserves) is the recursive field
node (`key`, `type`, `children`), `generateSchema` is the derivation function,
and the edit operations (`addField`, `removeField`, `updateField`,
`updateChildren`) are the handlers of `FieldEditor`.  JavaScript object
assignment `schema[key] = v` overwrites the value of an existing key without
moving it in the creation-order property store (`jsInsert`); the enumeration
order `Object.keys`/`JSON.stringify` exhibit puts array-index keys numerically
first (`jsOwnKeys`, per ECMAScript `[[OwnPropertyKeys]]`).
-/

/-- The `type` field of a `FieldNode`: `"String" | "Number" | "Nested"`. -/
inductive FType where
  | String : FType
  | Number : FType
  | Nested : FType
deriving DecidableEq, Repr

/-- `interface FieldNode` from App.tsx: `key: string; type: FType; children: FieldNode[]`. -/
inductive FieldNode where
  | mk : String → FType → List FieldNode → FieldNode
deriving Repr

/-- Accessor for the `key` field. -/
def FieldNode.key : FieldNode → String
  | .mk k _ _ => k

/-- Accessor for the `type` field. -/
def FieldNode.type : FieldNode → FType
  | .mk _ t _ => t

/-- Accessor for the `children` field. -/
def FieldNode.children : FieldNode → List FieldNode
  | .mk _ _ c => c

/-- A derived JSON value: `string | number | Record<string, ...>` as produced
by `getDefaultValue` / `generateSchema`.  Objects are ordered key-value lists,
matching JavaScript object property order. -/
inductive JValue where
  | str : String → JValue
  | num : Nat → JValue
  | obj : List (String × JValue) → JValue
deriving Repr

mutual

/-- Decidable equality of nodes (component-wise). -/
def fieldNodeDecEq : (a b : FieldNode) → Decidable (a = b)
  | .mk k1 t1 c1, .mk k2 t2 c2 =>
    match decEq k1 k2, decEq t1 t2, fieldNodeListDecEq c1 c2 with
    | isTrue hk, isTrue ht, isTrue hc => isTrue (by rw [hk, ht, hc])
    | isFalse hk, _, _ => isFalse (fun h => by injection h; exact hk (by assumption))
    | _, isFalse ht, _ => isFalse (fun h => by injection h; exact ht (by assumption))
    | _, _, isFalse hc => isFalse (fun h => by injection h; exact hc (by assumption))

/-- Decidable equality of node lists. -/
def fieldNodeListDecEq : (xs ys : List FieldNode) → Decidable (xs = ys)
  | [], [] => isTrue rfl
  | [], _ :: _ => isFalse (by simp)
  | _ :: _, [] => isFalse (by simp)
  | x :: xs, y :: ys =>
    match fieldNodeDecEq x y, fieldNodeListDecEq xs ys with
    | isTrue h1, isTrue h2 => isTrue (by rw [h1, h2])
    | isFalse h1, _ => isFalse (fun h => by injection h; exact h1 (by assumption))
    | _, isFalse h2 => isFalse (fun h => by injection h; exact h2 (by assumption))

end

instance : DecidableEq FieldNode := fieldNodeDecEq

mutual

/-- Decidable equality of JSON values (component-wise). -/
def jvalueDecEq : (a b : JValue) → Decidable (a = b)
  | .str s1, .str s2 =>
    match decEq s1 s2 with
    | isTrue h => isTrue (by rw [h])
    | isFalse h => isFalse (fun hh => by injection hh; exact h (by assumption))
  | .str _, .num _ => isFalse (by simp)
  | .str _, .obj _ => isFalse (by simp)
  | .num _, .str _ => isFalse (by simp)
  | .num n1, .num n2 =>
    match decEq n1 n2 with
    | isTrue h => isTrue (by rw [h])
    | isFalse h => isFalse (fun hh => by injection hh; exact h (by assumption))
  | .num _, .obj _ => isFalse (by simp)
  | .obj _, .str _ => isFalse (by simp)
  | .obj _, .num _ => isFalse (by simp)
  | .obj m1, .obj m2 =>
    match jvalueMembersDecEq m1 m2 with
    | isTrue h => isTrue (by rw [h])
    | isFalse h => isFalse (fun hh => by injection hh; exact h (by assumption))

/-- Decidable equality of object member lists. -/
def jvalueMembersDecEq : (xs ys : List (String × JValue)) → Decidable (xs = ys)
  | [], [] => isTrue rfl
  | [], _ :: _ => isFalse (by simp)
  | _ :: _, [] => isFalse (by simp)
  | (k1, v1) :: xs, (k2, v2) :: ys =>
    match decEq k1 k2, jvalueDecEq v1 v2, jvalueMembersDecEq xs ys with
    | isTrue hk, isTrue hv, isTrue hs => isTrue (by rw [hk, hv, hs])
    | isFalse hk, _, _ => isFalse (fun h => by simp at h; exact hk h.1.1)
    | _, isFalse hv, _ => isFalse (fun h => by simp at h; exact hv h.1.2)
    | _, _, isFalse hs => isFalse (fun h => by simp at h; exact hs h.2)

end

instance : DecidableEq JValue := jvalueDecEq

/-- `getDefaultValue` from App.tsx (lines 21-32). -/
def getDefaultValue : FType → JValue
  | .String => .str ""
  | .Number => .num 0
  | .Nested => .obj []

/-- `defaultField` from App.tsx (line 19): `{ key: "", type: "String", children: [] }`. -/
def defaultField : FieldNode := .mk "" .String []

/-- JavaScript object assignment `schema[key] = v` on the property store kept
in creation order: assigning to an existing key overwrites its value without
moving it, assigning a new key creates it last.  Lookup and has-own-key read
this store directly; the order `Object.keys`/`JSON.stringify` exhibit is
derived from it by `jsOwnKeys` (array-index keys numerically first). -/
def jsInsert (s : List (String × JValue)) (k : String) (v : JValue) :
    List (String × JValue) :=
  if s.any (fun p => p.1 = k) then
    s.map (fun p => if p.1 = k then (k, v) else p)
  else
    s ++ [(k, v)]

/-- The `fields.forEach` loop of `generateSchema` (App.tsx lines 34-45), with
the object built so far as accumulator: skip a node whose key is falsy
(the empty string); for a `Nested` node assign the recursively generated
schema of its children; otherwise assign `getDefaultValue(type)`. -/
def generateSchemaAux : List (String × JValue) → List FieldNode → List (String × JValue)
  | s, [] => s
  | s, f :: fs =>
      if f.key = "" then
        generateSchemaAux s fs
      else if f.type = .Nested then
        generateSchemaAux (jsInsert s f.key (.obj (generateSchemaAux [] f.children))) fs
      else
        generateSchemaAux (jsInsert s f.key (getDefaultValue f.type)) fs
termination_by _ fs => sizeOf fs
decreasing_by
  all_goals simp_wf
  all_goals (cases f with | mk k t c => (simp [FieldNode.children]; omega))

/-- `generateSchema` from App.tsx (lines 34-45): starts from the empty object. -/
def generateSchema (fields : List FieldNode) : List (String × JValue) :=
  generateSchemaAux [] fields

/-- The value `generateSchema` assigns for one node with a non-empty key:
the recursively generated schema for `Nested`, `getDefaultValue` otherwise. -/
def nodeValue (f : FieldNode) : JValue :=
  if f.type = .Nested then .obj (generateSchema f.children) else getDefaultValue f.type

/-- A `Partial<Field>` argument of `updateField`: each of the three
properties may be present or absent. -/
structure PartialField where
  key : Option String
  type : Option FType
  children : Option (List FieldNode)

/-- JS object spread `{ ...f, ...p }`: properties present in `p` win. -/
def mergeField (f : FieldNode) (p : PartialField) : FieldNode :=
  .mk (p.key.getD f.key) (p.type.getD f.type) (p.children.getD f.children)

/-- `updateField` from App.tsx (lines 54-58): copy the array and replace the
element at `index` by the spread-merge of the old element and `updated`.
(The editor only ever calls it with an index of an existing element.) -/
def updateField (fields : List FieldNode) (index : Nat) (updated : PartialField) :
    List FieldNode :=
  match fields.get? index with
  | some f => fields.set index (mergeField f updated)
  | none => fields

/-- `addField` from App.tsx (line 60): `setFields([...fields, defaultField()])`. -/
def addField (fields : List FieldNode) : List FieldNode :=
  fields ++ [defaultField]

/-- The index-aware traversal of `fields.filter((_, i) => i !== index)`
(App.tsx lines 62-65): `i` is the running position, `index` the argument,
which as a JS number can be any integer. -/
def removeFieldAux (index : Int) : Nat → List FieldNode → List FieldNode
  | _, [] => []
  | i, f :: fs =>
      if (i : Int) = index then removeFieldAux index (i + 1) fs
      else f :: removeFieldAux index (i + 1) fs

/-- `removeField` from App.tsx (lines 62-65). -/
def removeField (fields : List FieldNode) (index : Int) : List FieldNode :=
  removeFieldAux index 0 fields

/-- Replace only the `children` property of a node object (the write
`node.children = cs`). -/
def setChildrenV (f : FieldNode) (cs : List FieldNode) : FieldNode :=
  .mk f.key f.type cs

/-- Apply `g` to the element at position `i`, if any. -/
def modifyIdx {α : Type} (g : α → α) : List α → Nat → List α
  | [], _ => []
  | x :: xs, 0 => g x :: xs
  | x :: xs, n + 1 => x :: modifyIdx g xs n

/-!
Heap model for `updateChildren` (App.tsx lines 67-71).  A JS array of nodes
is a list of references into a heap of node objects; `h : List FieldNode` is
the heap (cell `a` holds the current value of object `a`) and an array is a
`List Nat` of cell addresses.  `updateChildren` does
`const newFields = [...fields]` (a fresh array holding the SAME references)
and then `newFields[index].children = children`, which writes through the
reference — a heap mutation seen by every array containing that object,
including the original `fields`.  On an out-of-range index the member write
would be on `undefined` and throw a TypeError, hence the `Option`.
-/

/-- The tree a holder of the array `refs` observes by reading every node
object out of the heap `h`. -/
def observe (h : List FieldNode) (refs : List Nat) : List FieldNode :=
  refs.map (fun a => (h.get? a).getD defaultField)

/-- `updateChildren` from App.tsx (lines 67-71) in the heap model: result is
the new heap together with the new array (same references as `fields`). -/
def updateChildrenJS (h : List FieldNode) (fields : List Nat) (index : Nat)
    (children : List FieldNode) : Option (List FieldNode × List Nat) :=
  match fields.get? index with
  | some a => some (modifyIdx (fun f => setChildrenV f children) h a, fields)
  | none => none

/-- Node located by descending through `children` at each index of `ds` and
finally taking position `i` of the level reached. -/
def nodeAt : List FieldNode → List Nat → Nat → Option FieldNode
  | t, [], i => t.get? i
  | t, d :: ds, i =>
      match t.get? d with
      | some f => nodeAt f.children ds i
      | none => none

/-- Replace the `children` of the node located by `(ds, i)` with `cs`,
rebuilding the spine (value-level analogue of the nested editor update). -/
def setChildrenAt (cs : List FieldNode) : List FieldNode → List Nat → Nat → List FieldNode
  | t, [], i => modifyIdx (fun f => setChildrenV f cs) t i
  | t, d :: ds, i =>
      modifyIdx (fun f => setChildrenV f (setChildrenAt cs f.children ds i)) t d

/-- Property access `schema[k]` on the ordered object: value of the first
(and, keys being unique, only) member named `k`. -/
def lookupKey : List (String × JValue) → String → Option JValue
  | [], _ => none
  | p :: ps, k => if p.1 = k then some p.2 else lookupKey ps k

/-- The object's property keys in creation order (order of first assignment).
This is the object's internal property list, NOT the order `Object.keys` and
`JSON.stringify` exhibit: ECMAScript `[[OwnPropertyKeys]]` (see `jsOwnKeys`)
lists array-index keys numerically first and only the remaining string keys
in this creation order. -/
def keysOf (s : List (String × JValue)) : List String :=
  s.map Prod.fst

/-- Effect of one JS property assignment on the creation-order key list: an
existing key keeps its position, a new key goes to the end. -/
def insFirst (acc : List String) (k : String) : List String :=
  if k ∈ acc then acc else acc ++ [k]

/-- Keys in order of first occurrence, duplicates collapsed. -/
def dedupFirst (l : List String) : List String :=
  l.foldl insFirst []

/-- Numeric value of a digit string (digits are ASCII 48-57). -/
def digitsVal (cs : List Char) : Nat :=
  cs.foldl (fun acc c => acc * 10 + (c.toNat - 48)) 0

/-- A canonical decimal numeral: `"0"`, or a nonzero leading digit followed
by digits (no leading zeros, no sign, no blanks). -/
def isCanonicalDigits : List Char → Bool
  | [] => false
  | [c] => c.isDigit
  | c :: rest => c.isDigit && !(c = Char.ofNat 48) && rest.all Char.isDigit

/-- ECMAScript array-index key: a canonical numeral whose value is below
2^32 - 1.  `[[OwnPropertyKeys]]` enumerates these keys first, in ascending
numeric order, before all other string keys. -/
def isIndexKey (s : String) : Bool :=
  isCanonicalDigits s.toList && decide (digitsVal s.toList < 4294967295)

/-- Insert a key into a list sorted by numeric value (insertion sort step). -/
def insertByVal (k : String) : List String → List String
  | [] => [k]
  | x :: xs =>
      if digitsVal k.toList ≤ digitsVal x.toList then k :: x :: xs
      else x :: insertByVal k xs

/-- Sort keys into ascending numeric order (used only on array-index keys,
whose canonical form makes the numeric value faithful). -/
def sortByVal : List String → List String
  | [] => []
  | x :: xs => insertByVal x (sortByVal xs)

/-- ECMAScript `[[OwnPropertyKeys]]` for a string-keyed object, the order
`Object.keys` and `JSON.stringify` actually enumerate: array-index keys in
ascending numeric order first, then the remaining keys in creation order. -/
def jsOwnKeys (s : List (String × JValue)) : List String :=
  sortByVal ((keysOf s).filter (fun k => isIndexKey k)) ++
    (keysOf s).filter (fun k => !(isIndexKey k))

/-!
App.tsx line 224 displays `JSON.stringify(schema, null, 2)`.  `JSON.stringify`
is the ECMAScript builtin; the serializer below follows its documented
algorithm (SerializeJSONObject / QuoteJSONString) for `space = 2`, i.e. with
gap `"  "`: an empty object prints as braces, a non-empty one puts each member
on its own line indented by the surrounding indentation plus two spaces, and
the closing brace on a line with the surrounding indentation.
-/

/-- One hexadecimal digit (lower case), for control-character escapes. -/
def hexDigit (n : Nat) : Char :=
  if n < 10 then Char.ofNat (48 + n) else Char.ofNat (87 + n)

/-- Four-digit hexadecimal rendering of a code point below 0x10000. -/
def hex4 (n : Nat) : String :=
  String.mk [hexDigit (n / 4096 % 16), hexDigit (n / 256 % 16),
    hexDigit (n / 16 % 16), hexDigit (n % 16)]

/-- QuoteJSONString escape of a single character. -/
def escChar (c : Char) : String :=
  if c = '\\' then "\\\\"
  else if c = '\"' then "\\\""
  else if c = Char.ofNat 8 then "\\b"
  else if c = Char.ofNat 9 then "\\t"
  else if c = Char.ofNat 10 then "\\n"
  else if c = Char.ofNat 12 then "\\f"
  else if c = Char.ofNat 13 then "\\r"
  else if c.toNat < 32 then "\\u" ++ hex4 c.toNat
  else String.singleton c

/-- QuoteJSONString: the double-quoted, escaped form of a string. -/
def jsonQuote (s : String) : String :=
  "\"" ++ String.join (s.toList.map escChar) ++ "\""

mutual

/-- SerializeJSONProperty for `space = 2` with current indentation `ind`. -/
def serializeVal (ind : String) : JValue → String
  | .str s => jsonQuote s
  | .num n => toString n
  | .obj [] => "\x7b\x7d"
  | .obj (m :: ms) =>
      "\x7b\n" ++ serializeMembers (ind ++ "  ") (m :: ms) ++ "\n" ++ ind ++ "\x7d"

/-- The comma-and-newline separated member lines of a non-empty object, each
starting with the indentation `ind`. -/
def serializeMembers (ind : String) : List (String × JValue) → String
  | [] => ""
  | [(k, v)] => ind ++ jsonQuote k ++ ": " ++ serializeVal ind v
  | (k, v) :: m :: ms =>
      ind ++ jsonQuote k ++ ": " ++ serializeVal ind v ++ ",\n" ++
        serializeMembers ind (m :: ms)

end

/-- The text inside the `<code>` element of the JSON-output tab (App.tsx
lines 217-227): when `hasFields` it is `JSON.stringify(schema, null, 2)`
starting at indentation `""`; with no fields the tab shows a placeholder
instead of any JSON text, modelled as `none`. -/
def jsonOutputText (fields : List FieldNode) : Option String :=
  if fields.length > 0 then
    some (serializeVal "" (.obj (generateSchema fields)))
  else
    none

example : generateSchema [.mk "name" .String [], .mk "age" .Number []] =
    [("name", .str ""), ("age", .num 0)] := by
  simp [generateSchema, generateSchemaAux, jsInsert, getDefaultValue,
    FieldNode.key, FieldNode.type, FieldNode.children]

example : generateSchema [.mk "address" .Nested [.mk "city" .String []]] =
    [("address", .obj [("city", .str "")])] := by
  simp [generateSchema, generateSchemaAux, jsInsert, getDefaultValue,
    FieldNode.key, FieldNode.type, FieldNode.children]

example : generateSchema [.mk "" .String [], .mk "x" .Number []] =
    [("x", .num 0)] := by
  simp [generateSchema, generateSchemaAux, jsInsert, getDefaultValue,
    FieldNode.key, FieldNode.type, FieldNode.children]

/-! ### Lemmas about property lookup and JS object assignment -/

theorem lookupKey_append_of_none {s : List (String × JValue)} {k : String}
    (h : lookupKey s k = none) (t : List (String × JValue)) :
    lookupKey (s ++ t) k = lookupKey t k := by
  induction s with
  | nil => simp
  | cons p ps ih =>
      by_cases hp : p.1 = k
      · simp [lookupKey, hp] at h
      · simp only [lookupKey, hp, if_neg] at h ⊢
        simp [lookupKey, hp, ih h]

theorem lookupKey_append_of_some {s : List (String × JValue)} {k : String}
    {v : JValue} (h : lookupKey s k = some v) (t : List (String × JValue)) :
    lookupKey (s ++ t) k = some v := by
  induction s with
  | nil => simp [lookupKey] at h
  | cons p ps ih =>
      by_cases hp : p.1 = k
      · simp only [lookupKey, hp, if_pos] at h ⊢
        simpa using h
      · simp only [lookupKey, hp, if_neg, ite_false] at h ⊢
        simp [lookupKey, hp, ih h]

theorem keysOf_cons (p : String × JValue) (ps : List (String × JValue)) :
    keysOf (p :: ps) = p.1 :: keysOf ps := rfl

theorem lookupKey_eq_none_iff (s : List (String × JValue)) (k : String) :
    lookupKey s k = none ↔ k ∉ keysOf s := by
  induction s with
  | nil => simp [lookupKey, keysOf]
  | cons p ps ih =>
      rw [keysOf_cons]
      by_cases hp : p.1 = k
      · simp [lookupKey, hp]
      · simp only [lookupKey, hp, if_neg, ite_false, List.mem_cons]
        constructor
        · intro h hor
          exact Or.elim hor (fun hh => hp hh.symm) (fun hm => (ih.1 h) hm)
        · intro h
          exact ih.2 (fun hm => h (Or.inr hm))

theorem any_key_iff (s : List (String × JValue)) (k : String) :
    s.any (fun p => p.1 = k) = true ↔ k ∈ keysOf s := by
  simp [List.any_eq_true, keysOf, List.mem_map]

theorem jsInsert_of_mem {s : List (String × JValue)} {k : String}
    (h : k ∈ keysOf s) (v : JValue) :
    jsInsert s k v = s.map (fun p => if p.1 = k then (k, v) else p) := by
  simp [jsInsert, (any_key_iff s k).2 h]

theorem jsInsert_of_not_mem {s : List (String × JValue)} {k : String}
    (h : k ∉ keysOf s) (v : JValue) :
    jsInsert s k v = s ++ [(k, v)] := by
  have : ¬ s.any (fun p => p.1 = k) = true := fun hh => h ((any_key_iff s k).1 hh)
  simp [jsInsert, this]

theorem keysOf_jsInsert (s : List (String × JValue)) (k : String) (v : JValue) :
    keysOf (jsInsert s k v) = insFirst (keysOf s) k := by
  by_cases h : k ∈ keysOf s
  · rw [jsInsert_of_mem h, insFirst, if_pos h]
    simp only [keysOf, List.map_map]
    apply List.map_congr_left
    intro p _
    by_cases hp : p.1 = k <;> simp [hp]
  · rw [jsInsert_of_not_mem h, insFirst, if_neg h]
    simp [keysOf]

theorem lookupKey_map_replace (s : List (String × JValue)) (k : String)
    (v : JValue) (k' : String) :
    lookupKey (s.map (fun p => if p.1 = k then (k, v) else p)) k' =
      if k' = k then (lookupKey s k).map (fun _ => v) else lookupKey s k' := by
  induction s with
  | nil => by_cases h : k' = k <;> simp [lookupKey, h]
  | cons p ps ih =>
      by_cases hp : p.1 = k
      · by_cases hk : k' = k
        · subst hk; simp [lookupKey, hp, ih]
        · have hk2 : ¬ k = k' := fun hh => hk hh.symm
          simp [lookupKey, hp, hk, hk2, ih]
      · by_cases hq : p.1 = k'
        · have hk : ¬ k' = k := fun hh => hp (hq.trans hh)
          simp [lookupKey, hp, hq, hk]
        · simp [lookupKey, hp, hq, ih]

theorem lookupKey_jsInsert (s : List (String × JValue)) (k : String)
    (v : JValue) (k' : String) :
    lookupKey (jsInsert s k v) k' = if k' = k then some v else lookupKey s k' := by
  by_cases hm : k ∈ keysOf s
  · rw [jsInsert_of_mem hm, lookupKey_map_replace]
    by_cases hk : k' = k
    · cases h : lookupKey s k with
      | none => exact absurd ((lookupKey_eq_none_iff s k).1 h) (by simpa using hm)
      | some w => simp [hk, h]
    · simp [hk]
  · rw [jsInsert_of_not_mem hm]
    have hnone : lookupKey s k = none := (lookupKey_eq_none_iff s k).2 hm
    by_cases hk : k' = k
    · subst hk
      rw [lookupKey_append_of_none hnone]
      simp [lookupKey]
    · cases h : lookupKey s k' with
      | none =>
          rw [lookupKey_append_of_none h]
          have hk2 : ¬ k = k' := fun hh => hk hh.symm
          simp [lookupKey, hk, hk2, h]
      | some w => rw [lookupKey_append_of_some h]; simp [hk, h]

/-! ### Lemmas about the derivation fold -/

theorem genAux_cons (s : List (String × JValue)) (f : FieldNode)
    (fs : List FieldNode) :
    generateSchemaAux s (f :: fs) =
      if f.key = "" then generateSchemaAux s fs
      else generateSchemaAux (jsInsert s f.key (nodeValue f)) fs := by
  by_cases hk : f.key = "" <;> by_cases ht : f.type = FType.Nested <;>
    simp [generateSchemaAux, nodeValue, generateSchema, hk, ht]

theorem genAux_append (l1 l2 : List FieldNode) :
    ∀ s, generateSchemaAux s (l1 ++ l2) =
      generateSchemaAux (generateSchemaAux s l1) l2 := by
  induction l1 with
  | nil => intro s; simp [generateSchemaAux]
  | cons f fs ih =>
      intro s
      rw [List.cons_append, genAux_cons, genAux_cons]
      by_cases hk : f.key = "" <;> simp [hk, ih]

theorem genAux_all_empty :
    ∀ (fs : List FieldNode) (s : List (String × JValue)),
      (∀ f ∈ fs, f.key = "") → generateSchemaAux s fs = s := by
  intro fs
  induction fs with
  | nil => intro s _; simp [generateSchemaAux]
  | cons f fs ih =>
      intro s h
      rw [genAux_cons, if_pos (h f (List.mem_cons_self f fs))]
      exact ih s (fun g hg => h g (List.mem_cons_of_mem f hg))

theorem genAux_filter_nonempty :
    ∀ (fs : List FieldNode) (s : List (String × JValue)),
      generateSchemaAux s (fs.filter (fun f => ¬ f.key = "")) =
        generateSchemaAux s fs := by
  intro fs
  induction fs with
  | nil => intro s; simp
  | cons f fs ih =>
      intro s
      by_cases hfk : f.key = ""
      · rw [List.filter_cons, if_neg (by simp [hfk]), genAux_cons, if_pos hfk]
        exact ih s
      · rw [List.filter_cons, if_pos (by simp [hfk]), genAux_cons, genAux_cons,
          if_neg hfk, if_neg hfk]
        exact ih _

theorem lookup_genAux (k : String) (hk : ¬ k = "") :
    ∀ (fs : List FieldNode) (s : List (String × JValue)),
      lookupKey (generateSchemaAux s fs) k =
        ((fs.filter (fun f => f.key = k)).getLast?).elim
          (lookupKey s k) (fun f => some (nodeValue f)) := by
  intro fs
  induction fs with
  | nil => intro s; simp [generateSchemaAux]
  | cons f fs ih =>
      intro s
      rw [genAux_cons]
      by_cases hfk : f.key = ""
      · have hne : ¬ (f.key = k) := fun hh => hk (hh.symm.trans hfk)
        rw [if_pos hfk, List.filter_cons, if_neg (by simp [hne])]
        exact ih s
      · rw [if_neg hfk]
        by_cases hke : f.key = k
        · rw [List.filter_cons, if_pos (by simp [hke])]
          cases hfl : fs.filter (fun f => f.key = k) with
          | nil =>
              rw [ih (jsInsert s f.key (nodeValue f)), hfl]
              simp [lookupKey_jsInsert, hke]
          | cons b l =>
              rw [ih (jsInsert s f.key (nodeValue f)), hfl,
                List.getLast?_cons_cons]
              cases hg : (b :: l).getLast? with
              | none => exact absurd (List.getLast?_eq_none_iff.1 hg) (by simp)
              | some g => simp
        · rw [List.filter_cons, if_neg (by simp [hke]),
            ih (jsInsert s f.key (nodeValue f))]
          have hk2 : ¬ k = f.key := fun hh => hke hh.symm
          cases hfl : (fs.filter (fun f => f.key = k)).getLast? <;>
            simp [lookupKey_jsInsert, hk2]

theorem keys_genAux :
    ∀ (fs : List FieldNode) (s : List (String × JValue)),
      keysOf (generateSchemaAux s fs) =
        ((fs.filter (fun f => ¬ f.key = "")).map FieldNode.key).foldl
          insFirst (keysOf s) := by
  intro fs
  induction fs with
  | nil => intro s; simp [generateSchemaAux]
  | cons f fs ih =>
      intro s
      rw [genAux_cons]
      by_cases hfk : f.key = ""
      · rw [if_pos hfk, List.filter_cons, if_neg (by simp [hfk])]
        exact ih s
      · rw [if_neg hfk, List.filter_cons, if_pos (by simp [hfk]),
          List.map_cons, List.foldl_cons,
          ih (jsInsert s f.key (nodeValue f)), keysOf_jsInsert]

theorem mem_foldl_insFirst (k : String) :
    ∀ (l : List String) (acc : List String),
      k ∈ l.foldl insFirst acc ↔ k ∈ acc ∨ k ∈ l := by
  intro l
  induction l with
  | nil => intro acc; simp
  | cons a l ih =>
      intro acc
      rw [List.foldl_cons, ih]
      by_cases ha : a ∈ acc
      · rw [insFirst, if_pos ha]
        constructor
        · rintro (h | h)
          · exact Or.inl h
          · exact Or.inr (List.mem_cons_of_mem a h)
        · rintro (h | h)
          · exact Or.inl h
          · rcases List.mem_cons.1 h with h | h
            · exact Or.inl (h ▸ ha)
            · exact Or.inr h
      · rw [insFirst, if_neg ha]
        simp [List.mem_append, List.mem_cons]
        tauto

/-! ### Lemmas about positional updates and removal -/

theorem modifyIdx_get? {α : Type} (g : α → α) :
    ∀ (l : List α) (i j : Nat),
      (modifyIdx g l i).get? j = if j = i then (l.get? i).map g else l.get? j := by
  intro l
  induction l with
  | nil => intro i j; simp [modifyIdx]
  | cons x xs ih =>
      intro i j
      cases i with
      | zero =>
          cases j with
          | zero => simp [modifyIdx]
          | succ j => simp [modifyIdx]
      | succ i =>
          cases j with
          | zero => simp [modifyIdx]
          | succ j => simpa [modifyIdx] using ih i j

theorem modifyIdx_length {α : Type} (g : α → α) :
    ∀ (l : List α) (i : Nat), (modifyIdx g l i).length = l.length := by
  intro l
  induction l with
  | nil => intro i; rfl
  | cons x xs ih => intro i; cases i <;> simp [modifyIdx, ih]

theorem list_split_at {α : Type} :
    ∀ (l : List α) (i : Nat) (h : i < l.length),
      l = l.take i ++ l.get ⟨i, h⟩ :: l.drop (i + 1) := by
  intro l
  induction l with
  | nil => intro i h; simp at h
  | cons x xs ih =>
      intro i h
      cases i with
      | zero => simp
      | succ i =>
          simp only [List.take_succ_cons, List.drop_succ_cons, List.get_cons_succ,
            List.cons_append]
          exact congrArg (x :: ·) (ih i (by simpa using h))

theorem modifyIdx_split {α : Type} (g : α → α) :
    ∀ (l : List α) (i : Nat) (h : i < l.length),
      modifyIdx g l i = l.take i ++ g (l.get ⟨i, h⟩) :: l.drop (i + 1) := by
  intro l
  induction l with
  | nil => intro i h; simp at h
  | cons x xs ih =>
      intro i h
      cases i with
      | zero => simp [modifyIdx]
      | succ i =>
          simp only [modifyIdx, List.take_succ_cons, List.drop_succ_cons,
            List.get_cons_succ, List.cons_append]
          exact congrArg (x :: ·) (ih i (by simpa using h))

theorem removeFieldAux_out_of_range :
    ∀ (fs : List FieldNode) (j : Nat) (index : Int),
      (index < (j : Int) ∨ (j : Int) + fs.length ≤ index) →
      removeFieldAux index j fs = fs := by
  intro fs
  induction fs with
  | nil => intro j idx _; rfl
  | cons f fs ih =>
      intro j idx h
      simp only [List.length_cons] at h
      rw [removeFieldAux, if_neg (by omega)]
      exact congrArg (f :: ·) (ih (j + 1) idx (by omega))

theorem removeFieldAux_in_range :
    ∀ (fs : List FieldNode) (j n : Nat),
      removeFieldAux ((j + n : Nat) : Int) j fs = fs.take n ++ fs.drop (n + 1) := by
  intro fs
  induction fs with
  | nil => intro j n; simp [removeFieldAux]
  | cons f fs ih =>
      intro j n
      cases n with
      | zero =>
          rw [removeFieldAux, if_pos (by omega)]
          rw [removeFieldAux_out_of_range fs (j + 1) _ (by omega)]
          simp
      | succ n =>
          rw [removeFieldAux, if_neg (by omega)]
          simp only [List.take_succ_cons, List.drop_succ_cons]
          rw [show ((j + (n + 1) : Nat) : Int) = (((j + 1) + n : Nat) : Int) by
            push_cast; omega]
          exact congrArg (f :: ·) (ih (j + 1) n)

theorem key_setChildrenV (f : FieldNode) (cs : List FieldNode) :
    (setChildrenV f cs).key = f.key := by
  cases f; rfl

theorem type_setChildrenV (f : FieldNode) (cs : List FieldNode) :
    (setChildrenV f cs).type = f.type := by
  cases f; rfl

theorem children_setChildrenV (f : FieldNode) (cs : List FieldNode) :
    (setChildrenV f cs).children = cs := by
  cases f; rfl

theorem nodeValue_setChildrenV_of_not_nested (f : FieldNode)
    (cs : List FieldNode) (h : ¬ f.type = FType.Nested) :
    nodeValue (setChildrenV f cs) = nodeValue f := by
  simp [nodeValue, type_setChildrenV, h]

theorem genAux_setChildrenAt (cs : List FieldNode) :
    ∀ (ds : List Nat) (t : List FieldNode) (i : Nat) (f : FieldNode),
      nodeAt t ds i = some f → ¬ f.type = FType.Nested →
      ∀ s, generateSchemaAux s (setChildrenAt cs t ds i) = generateSchemaAux s t := by
  intro ds
  induction ds with
  | nil =>
      intro t i f hat hnt s
      obtain ⟨hlen, hgetf⟩ := List.get?_eq_some.1 (hat : t.get? i = some f)
      rw [setChildrenAt, modifyIdx_split _ t i hlen]
      conv_rhs => rw [list_split_at t i hlen]
      rw [genAux_append, genAux_append, genAux_cons, genAux_cons, hgetf,
        key_setChildrenV]
      by_cases hk : f.key = ""
      · rw [if_pos hk, if_pos hk]
      · rw [if_neg hk, if_neg hk, nodeValue_setChildrenV_of_not_nested f cs hnt]
  | cons d ds ih =>
      intro t i f hat hnt s
      cases hd : t.get? d with
      | none => rw [nodeAt, hd] at hat; cases hat
      | some fd =>
          have hat' : nodeAt fd.children ds i = some f := by
            rw [nodeAt, hd] at hat; exact hat
          obtain ⟨hdlen, hgetd⟩ := List.get?_eq_some.1 hd
          rw [setChildrenAt, modifyIdx_split _ t d hdlen]
          conv_rhs => rw [list_split_at t d hdlen]
          rw [genAux_append, genAux_append, genAux_cons, genAux_cons, hgetd,
            key_setChildrenV]
          by_cases hk : fd.key = ""
          · rw [if_pos hk, if_pos hk]
          · rw [if_neg hk, if_neg hk]
            have hval :
                nodeValue (setChildrenV fd (setChildrenAt cs fd.children ds i)) =
                  nodeValue fd := by
              by_cases ht : fd.type = FType.Nested
              · simp only [nodeValue, type_setChildrenV, ht, if_pos,
                  children_setChildrenV, ite_true]
                exact congrArg JValue.obj (ih fd.children i f hat' hnt [])
              · exact nodeValue_setChildrenV_of_not_nested fd _ ht
            rw [hval]

/-! ### Lemmas about the heap model of `updateChildren` -/

theorem get?_map_comm {α β : Type} (f : α → β) (l : List α) (n : Nat) :
    (l.map f).get? n = (l.get? n).map f := by
  simp [List.get?_eq_getElem?, List.getElem?_map]

theorem observe_updateChildrenJS
    (h : List FieldNode) (refs : List Nat) (i : Nat) (cs : List FieldNode)
    (hvalid : ∀ b ∈ refs, b < h.length) (hnodup : refs.Nodup)
    {h' : List FieldNode} {refs' : List Nat}
    (hcall : updateChildrenJS h refs i cs = some (h', refs')) :
    refs' = refs ∧
    observe h' refs = modifyIdx (fun f => setChildrenV f cs) (observe h refs) i := by
  cases ha : refs.get? i with
  | none => rw [updateChildrenJS, ha] at hcall; cases hcall
  | some a =>
      rw [updateChildrenJS, ha] at hcall
      injection hcall with hpair
      injection hpair with hh hr
      subst hh
      subst hr
      refine ⟨rfl, ?_⟩
      have hmem : a ∈ refs := List.get?_mem ha
      have hga : h.get? a = some (h.get ⟨a, hvalid a hmem⟩) :=
        List.get?_eq_some.2 ⟨hvalid a hmem, rfl⟩
      apply List.ext_get?
      intro j
      simp only [observe]
      rw [get?_map_comm, modifyIdx_get?]
      by_cases hji : j = i
      · subst hji
        rw [if_pos rfl, get?_map_comm, ha]
        have hcell :
            ((modifyIdx (fun f => setChildrenV f cs) h a).get? a).getD defaultField
              = setChildrenV ((h.get? a).getD defaultField) cs := by
          rw [modifyIdx_get?, if_pos rfl, hga]
          rfl
        exact congrArg some hcell
      · rw [if_neg hji, get?_map_comm]
        cases hj : refs.get? j with
        | none => rfl
        | some b =>
            have hba : ¬ b = a := by
              intro hba
              subst hba
              obtain ⟨hjl, hgj⟩ := List.get?_eq_some.1 hj
              obtain ⟨hil, hgi⟩ := List.get?_eq_some.1 ha
              have hfin := (List.nodup_iff_injective_get.1 hnodup)
                (hgj.trans hgi.symm)
              exact hji (congrArg Fin.val hfin)
            have hcell :
                ((modifyIdx (fun f => setChildrenV f cs) h a).get? b).getD defaultField
                  = (h.get? b).getD defaultField := by
              rw [modifyIdx_get?, if_neg hba]
            exact congrArg some hcell

/-! ### Claim-level helper lemmas -/

theorem lookup_generateSchema_last (t : List FieldNode) (k : String)
    (hk : ¬ k = "") :
    lookupKey (generateSchema t) k =
      ((t.filter (fun f => f.key = k)).getLast?).map nodeValue := by
  rw [generateSchema, lookup_genAux k hk t []]
  cases hfl : (t.filter (fun f => f.key = k)).getLast? with
  | none => rfl
  | some g => rfl

theorem keysOf_generateSchema (t : List FieldNode) :
    keysOf (generateSchema t) =
      dedupFirst ((t.filter (fun f => ¬ f.key = "")).map FieldNode.key) := by
  rw [generateSchema, keys_genAux t [], dedupFirst]
  rfl

theorem exists_get_of_mem_drop {α : Type} :
    ∀ (l : List α) (n : Nat) (a : α), a ∈ l.drop n →
      ∃ j, ∃ hj : j < l.length, n ≤ j ∧ l.get ⟨j, hj⟩ = a := by
  intro l
  induction l with
  | nil => intro n a ha; simp at ha
  | cons x xs ih =>
      intro n a ha
      cases n with
      | zero =>
          rw [List.drop_zero] at ha
          obtain ⟨⟨j, hj⟩, hget⟩ := List.mem_iff_get.1 ha
          exact ⟨j, hj, Nat.zero_le j, hget⟩
      | succ n =>
          rw [List.drop_succ_cons] at ha
          obtain ⟨j, hj, hnj, hget⟩ := ih n a ha
          exact ⟨j + 1, by simpa using Nat.succ_lt_succ hj,
            Nat.succ_le_succ hnj, by simpa using hget⟩

/-! ### Claim theorems -/

theorem nodeValue_eq_match (f : FieldNode) :
    nodeValue f = (match f.type with
      | FType.Nested => JValue.obj (generateSchema f.children)
      | FType.String => JValue.str ""
      | FType.Number => JValue.num 0) := by
  cases f with
  | mk k ty cs =>
      cases ty <;>
        simp [nodeValue, FieldNode.type, FieldNode.children, getDefaultValue]

theorem filter_key_split (t : List FieldNode) (i : Nat) (h : i < t.length)
    (k : String) (hik : (t.get ⟨i, h⟩).key = k)
    (hlater : ∀ (j : Nat) (hj : j < t.length), i < j →
      ¬ (t.get ⟨j, hj⟩).key = k) :
    t.filter (fun f => f.key = k) =
      (t.take i).filter (fun f => f.key = k) ++ [t.get ⟨i, h⟩] := by
  conv_lhs => rw [list_split_at t i h]
  rw [List.filter_append, List.filter_cons, if_pos (by simpa using hik)]
  have hdrop : (t.drop (i + 1)).filter (fun f => f.key = k) = [] := by
    rw [List.filter_eq_nil_iff]
    intro a hmem
    obtain ⟨j, hj, hij, hget⟩ := exists_get_of_mem_drop t (i + 1) a hmem
    simp only [decide_eq_true_eq]
    exact fun hh => hlater j hj (by omega) (by rw [hget]; exact hh)
  rw [hdrop]

/-- C1: `generateSchema` maps every node in sequence order as the spec says:
an empty-keyed node contributes nothing (dropping all empty-keyed nodes leaves
the derived object unchanged), and for a node with a non-empty key that is not
overwritten by a later duplicate, the entry under its key is the recursive
schema of its children when its type is `Nested`, the empty string for
`String`, and `0` for `Number`. -/
theorem generateSchema_per_node (t : List FieldNode) :
    generateSchema (t.filter (fun f => ¬ f.key = "")) = generateSchema t ∧
    (∀ (i : Nat) (h : i < t.length),
      ¬ (t.get ⟨i, h⟩).key = "" →
      (∀ (j : Nat) (hj : j < t.length), i < j →
        ¬ (t.get ⟨j, hj⟩).key = (t.get ⟨i, h⟩).key) →
      lookupKey (generateSchema t) ((t.get ⟨i, h⟩).key) =
        some (match (t.get ⟨i, h⟩).type with
          | FType.Nested => JValue.obj (generateSchema ((t.get ⟨i, h⟩).children))
          | FType.String => JValue.str ""
          | FType.Number => JValue.num 0)) := by
  constructor
  · exact genAux_filter_nonempty t []
  · intro i h hk hlater
    rw [lookup_generateSchema_last t _ hk,
      filter_key_split t i h _ rfl hlater, List.getLast?_concat]
    exact congrArg some (nodeValue_eq_match _)

/-- Witness for C1 at `[{key:"x", type:Number}]`, node 0. -/
theorem generateSchema_per_node_witness :
    lookupKey (generateSchema [FieldNode.mk "x" FType.Number []]) "x" =
      some (JValue.num 0) := by
  have hmain := (generateSchema_per_node [FieldNode.mk "x" FType.Number []]).2
    0 (by decide) (by decide) (by decide)
  simpa [FieldNode.key, FieldNode.type] using hmain

/-- C2: the key set of the derived object is exactly the set of non-empty keys
of the top-level nodes; under a non-empty key the stored value comes from the
last node with that key; a tree whose nodes all have empty keys (in particular
the empty tree) derives to the empty object. -/
theorem derive_keyset (t : List FieldNode) :
    (∀ k, k ∈ keysOf (generateSchema t) ↔ (¬ k = "" ∧ ∃ f ∈ t, f.key = k)) ∧
    (∀ k, ¬ k = "" →
      lookupKey (generateSchema t) k =
        ((t.filter (fun f => f.key = k)).getLast?).map nodeValue) ∧
    ((∀ f ∈ t, f.key = "") → generateSchema t = []) := by
  refine ⟨?_, fun k hk => lookup_generateSchema_last t k hk,
    fun h => genAux_all_empty t [] h⟩
  intro k
  rw [keysOf_generateSchema, dedupFirst, mem_foldl_insFirst]
  simp only [List.mem_map, List.mem_filter, List.not_mem_nil, false_or,
    decide_eq_true_eq]
  constructor
  · rintro ⟨f, ⟨hft, hfk⟩, rfl⟩
    exact ⟨hfk, f, hft, rfl⟩
  · rintro ⟨hk, f, hft, rfl⟩
    exact ⟨f, ⟨hft, hk⟩, rfl⟩

/-- Witness for C2 at `[{key:"", type:String}, {key:"b", type:Number}]`. -/
theorem derive_keyset_witness :
    lookupKey (generateSchema
        [FieldNode.mk "" FType.String [], FieldNode.mk "b" FType.Number []])
      "b" = some (JValue.num 0) := by
  have hmain := (derive_keyset
    [FieldNode.mk "" FType.String [], FieldNode.mk "b" FType.Number []]).2.1
    "b" (by decide)
  rw [hmain]
  decide

/-- C3 counterexample: `updateChildren` writes the new children through the
shared node object, so after the call the ORIGINAL array observes the changed
node: the input tree is not left as it was. -/
theorem updateChildren_mutates_input :
    updateChildrenJS [FieldNode.mk "a" FType.String []] [0] 0
        [FieldNode.mk "b" FType.Number []] =
      some ([FieldNode.mk "a" FType.String [FieldNode.mk "b" FType.Number []]],
        [0]) ∧
    ¬ observe [FieldNode.mk "a" FType.String [FieldNode.mk "b" FType.Number []]]
        [0] =
      observe [FieldNode.mk "a" FType.String []] [0] :=
  ⟨rfl, by decide⟩

/-- C3 (amended): for a well-formed state (valid, distinct references) and an
in-range index, `updateChildren` returns the same array of references whose
observed tree is the input tree with node `i`'s children replaced (its key and
type kept, all other nodes unchanged) — but the original input array observes
exactly the same updated tree, because the node object was mutated in place. -/
theorem updateChildren_observed (h : List FieldNode) (refs : List Nat) (i : Nat)
    (cs : List FieldNode) (h' : List FieldNode) (refs' : List Nat)
    (hvalid : ∀ b ∈ refs, b < h.length) (hnodup : refs.Nodup)
    (hcall : updateChildrenJS h refs i cs = some (h', refs')) :
    refs' = refs ∧
    (observe h' refs').length = (observe h refs).length ∧
    (∀ j, ¬ j = i → (observe h' refs').get? j = (observe h refs).get? j) ∧
    ((observe h' refs').get? i =
      ((observe h refs).get? i).map (fun f => setChildrenV f cs)) ∧
    observe h' refs = observe h' refs' := by
  obtain ⟨hr, hobs⟩ := observe_updateChildrenJS h refs i cs hvalid hnodup hcall
  subst hr
  refine ⟨rfl, ?_, ?_, ?_, rfl⟩
  · rw [hobs, modifyIdx_length]
  · intro j hj
    rw [hobs, modifyIdx_get?, if_neg hj]
  · rw [hobs, modifyIdx_get?, if_pos rfl]

/-- Witness for the amended C3 at a one-node heap. -/
theorem updateChildren_observed_witness :
    (observe [FieldNode.mk "a" FType.String [FieldNode.mk "c" FType.Number []]]
        [0]).get? 0 =
      ((observe [FieldNode.mk "a" FType.String []] [0]).get? 0).map
        (fun f => setChildrenV f [FieldNode.mk "c" FType.Number []]) :=
  (updateChildren_observed [FieldNode.mk "a" FType.String []] [0] 0
    [FieldNode.mk "c" FType.Number []]
    [FieldNode.mk "a" FType.String [FieldNode.mk "c" FType.Number []]] [0]
    (by decide) (by decide) rfl).2.2.2.1

theorem updateField_of_get? {t : List FieldNode} {i : Nat} {f : FieldNode}
    (hget : t.get? i = some f) (p : PartialField) :
    updateField t i p = t.set i (mergeField f p) := by
  unfold updateField
  rw [hget]

/-- C4: `updateField` replaces the node at an in-range index by the shallow
merge of its fields with the partial record, keeps the length and every other
index unchanged, and merging only a new `type` leaves `children` dormant, so
retyping away from `Nested` and back exposes the original children again. -/
theorem updateField_frame (t : List FieldNode) (i : Nat) (p : PartialField)
    (h : i < t.length) :
    (updateField t i p).length = t.length ∧
    (updateField t i p).get? i = some (mergeField (t.get ⟨i, h⟩) p) ∧
    (∀ j, ¬ j = i → (updateField t i p).get? j = t.get? j) ∧
    (∀ ty : FType,
      (updateField (updateField t i (PartialField.mk none (some ty) none)) i
          (PartialField.mk none (some FType.Nested) none)).get? i =
        some (FieldNode.mk ((t.get ⟨i, h⟩).key) FType.Nested
          ((t.get ⟨i, h⟩).children))) := by
  have hget : t.get? i = some (t.get ⟨i, h⟩) := List.get?_eq_some.2 ⟨h, rfl⟩
  refine ⟨?_, ?_, ?_, ?_⟩
  · rw [updateField_of_get? hget p]
    exact List.length_set t i _
  · rw [updateField_of_get? hget p, List.get?_eq_getElem?,
      List.getElem?_set_self h]
  · intro j hj
    rw [updateField_of_get? hget p, List.get?_eq_getElem?,
      List.getElem?_set_ne (fun hh => hj hh.symm), List.get?_eq_getElem?]
  · intro ty
    have h1 := updateField_of_get? hget (PartialField.mk none (some ty) none)
    have hget1 : (updateField t i (PartialField.mk none (some ty) none)).get? i =
        some (mergeField (t.get ⟨i, h⟩) (PartialField.mk none (some ty) none)) := by
      rw [h1, List.get?_eq_getElem?, List.getElem?_set_self h]
    rw [updateField_of_get? hget1 (PartialField.mk none (some FType.Nested) none),
      List.get?_eq_getElem?,
      List.getElem?_set_self (by rw [h1, List.length_set]; exact h)]
    rfl

/-- Witness for C4: renaming the only node of `[{key:"a"}]` to `"b"`. -/
theorem updateField_frame_witness :
    (updateField [FieldNode.mk "a" FType.String []] 0
        (PartialField.mk (some "b") none none)).get? 0 =
      some (FieldNode.mk "b" FType.String []) :=
  (updateField_frame [FieldNode.mk "a" FType.String []] 0
    (PartialField.mk (some "b") none none) (by decide)).2.1

/-- C5: removing an in-range index keeps exactly the other elements in their
relative order, and the length drops by one. -/
theorem removeField_in_range (t : List FieldNode) (i : Nat) (h : i < t.length) :
    removeField t (i : Int) = t.take i ++ t.drop (i + 1) ∧
    (removeField t (i : Int)).length = t.length - 1 := by
  have h1 : removeField t (i : Int) = t.take i ++ t.drop (i + 1) := by
    rw [removeField]
    have h2 := removeFieldAux_in_range t 0 i
    rw [show ((0 + i : Nat) : Int) = (i : Int) by push_cast; omega] at h2
    exact h2
  refine ⟨h1, ?_⟩
  rw [h1, List.length_append, List.length_take, List.length_drop]
  omega

/-- Witness for C5: removing index 0 from `[{key:"a"}, {key:"b"}]` leaves
`[{key:"b"}]`. -/
theorem removeField_in_range_witness :
    removeField
        [FieldNode.mk "a" FType.String [], FieldNode.mk "b" FType.String []]
        ((0 : Nat) : Int) =
      [FieldNode.mk "b" FType.String []] := by
  have hmain := (removeField_in_range
    [FieldNode.mk "a" FType.String [], FieldNode.mk "b" FType.String []] 0
    (by decide)).1
  simpa using hmain

/-- C6: `addField` appends exactly one default node (empty key, type String,
no children) at the end, and since the new key is empty the derived object is
unchanged. -/
theorem addField_derive_unchanged (t : List FieldNode) :
    addField t = t ++ [FieldNode.mk "" FType.String []] ∧
    generateSchema (addField t) = generateSchema t := by
  refine ⟨rfl, ?_⟩
  rw [addField, generateSchema, generateSchema, genAux_append, genAux_cons,
    if_pos (by rfl)]
  simp [generateSchemaAux]

/-- C7: the children stored on a node whose type is not `Nested` (at any
depth) are ignored by derivation: replacing them with an arbitrary list leaves
the derived object unchanged. -/
theorem derive_ignores_non_nested_children (t : List FieldNode)
    (ds : List Nat) (i : Nat) (f : FieldNode) (cs : List FieldNode)
    (hat : nodeAt t ds i = some f) (hnt : ¬ f.type = FType.Nested) :
    generateSchema (setChildrenAt cs t ds i) = generateSchema t :=
  genAux_setChildrenAt cs ds t i f hat hnt []

/-- Witness for C7: stuffing children into a `String` node changes nothing. -/
theorem derive_ignores_non_nested_children_witness :
    generateSchema (setChildrenAt [FieldNode.mk "z" FType.Number []]
        [FieldNode.mk "a" FType.String []] [] 0) =
      generateSchema [FieldNode.mk "a" FType.String []] :=
  derive_ignores_non_nested_children [FieldNode.mk "a" FType.String []] [] 0
    (FieldNode.mk "a" FType.String []) [FieldNode.mk "z" FType.Number []]
    rfl (by decide)

/-- C8: with at least one field the JSON tab shows exactly the derived object
serialized with two-space indentation: each non-empty object opens a brace,
puts every member on a line indented two spaces beyond the surrounding
indentation, and closes at the surrounding indentation, as the concrete
nested example shows verbatim. -/
theorem jsonOutput_two_space (fields : List FieldNode) (hne : ¬ fields = []) :
    jsonOutputText fields =
      some (serializeVal "" (JValue.obj (generateSchema fields))) ∧
    (∀ (ind : String) (m : String × JValue) (ms : List (String × JValue)),
      serializeVal ind (JValue.obj (m :: ms)) =
        "\x7b\n" ++ serializeMembers (ind ++ "  ") (m :: ms) ++ "\n" ++ ind ++
          "\x7d") ∧
    jsonOutputText
        [FieldNode.mk "address" FType.Nested [FieldNode.mk "city" FType.String []]] =
      some "\x7b\n  \"address\": \x7b\n    \"city\": \"\"\n  \x7d\n\x7d" := by
  refine ⟨?_, ?_, ?_⟩
  · rw [jsonOutputText, if_pos (by simpa [List.length_pos] using hne)]
  · intro ind m ms
    rw [serializeVal]
  · have hschema : generateSchema
        [FieldNode.mk "address" FType.Nested [FieldNode.mk "city" FType.String []]] =
        [("address", JValue.obj [("city", JValue.str "")])] := by
      simp [generateSchema, generateSchemaAux, jsInsert, getDefaultValue,
        FieldNode.key, FieldNode.type, FieldNode.children]
    rw [jsonOutputText, if_pos (by decide), hschema]
    rfl

/-- Witness for C8 at the one-field tree `[{key:"x", type:Number}]`. -/
theorem jsonOutput_two_space_witness :
    jsonOutputText [FieldNode.mk "x" FType.Number []] =
      some (serializeVal "" (JValue.obj
        (generateSchema [FieldNode.mk "x" FType.Number []]))) :=
  (jsonOutput_two_space [FieldNode.mk "x" FType.Number []] (by decide)).1

/-- C10 counterexample: with nodes `[{key:"b"}, {key:"0"}, {key:"0"}]` the
duplicated key `"0"` is an ECMAScript array-index key, so `Object.keys` /
`JSON.stringify` enumerate it FIRST (numeric keys in ascending order precede
string keys), not at the position of its earliest node in sequence order
(which would put it after `"b"`). -/
theorem derive_index_key_order_counterexample :
    jsOwnKeys (generateSchema
        [FieldNode.mk "b" FType.String [], FieldNode.mk "0" FType.String [],
          FieldNode.mk "0" FType.Number []]) = ["0", "b"] ∧
    dedupFirst (([FieldNode.mk "b" FType.String [],
        FieldNode.mk "0" FType.String [],
        FieldNode.mk "0" FType.Number []].filter
          (fun f => ¬ f.key = "")).map FieldNode.key) = ["b", "0"] ∧
    ¬ jsOwnKeys (generateSchema
        [FieldNode.mk "b" FType.String [], FieldNode.mk "0" FType.String [],
          FieldNode.mk "0" FType.Number []]) =
      dedupFirst (([FieldNode.mk "b" FType.String [],
        FieldNode.mk "0" FType.String [],
        FieldNode.mk "0" FType.Number []].filter
          (fun f => ¬ f.key = "")).map FieldNode.key) := by
  have hschema : generateSchema
      [FieldNode.mk "b" FType.String [], FieldNode.mk "0" FType.String [],
        FieldNode.mk "0" FType.Number []] =
      [("b", JValue.str ""), ("0", JValue.num 0)] := by
    simp [generateSchema, generateSchemaAux, jsInsert, getDefaultValue,
      FieldNode.key, FieldNode.type, FieldNode.children]
  refine ⟨?_, ?_, ?_⟩
  · rw [hschema]
    decide
  · decide
  · rw [hschema]
    decide

/-- C10 (amended): a later node with a duplicate key never moves the key —
the enumerated key order of the derived mapping is a function of the first
occurrences alone: array-index keys (canonical numerals below 2^32 - 1) in
ascending numeric order first, then all remaining keys in order of their
earliest node in sequence; so a non-index key sits at the position its
earliest node determines among the non-index keys, while the value stored
under any key still comes from the latest node with that key. -/
theorem derive_key_enumeration (t : List FieldNode) :
    jsOwnKeys (generateSchema t) =
      sortByVal
          ((dedupFirst ((t.filter (fun f => ¬ f.key = "")).map
            FieldNode.key)).filter (fun k => isIndexKey k)) ++
        (dedupFirst ((t.filter (fun f => ¬ f.key = "")).map
          FieldNode.key)).filter (fun k => !(isIndexKey k)) ∧
    (∀ k, ¬ k = "" →
      lookupKey (generateSchema t) k =
        ((t.filter (fun f => f.key = k)).getLast?).map nodeValue) := by
  constructor
  · simp only [jsOwnKeys]
    rw [keysOf_generateSchema]
  · exact fun k hk => lookup_generateSchema_last t k hk

/-- Witness for the amended C10 on `[{key:"b"}, {key:"0"}, {key:"0"}]`: the
index key `"0"` enumerates first and holds the last node's value `0`. -/
theorem derive_key_enumeration_witness :
    jsOwnKeys (generateSchema
        [FieldNode.mk "b" FType.String [], FieldNode.mk "0" FType.String [],
          FieldNode.mk "0" FType.Number []]) = ["0", "b"] ∧
    lookupKey (generateSchema
        [FieldNode.mk "b" FType.String [], FieldNode.mk "0" FType.String [],
          FieldNode.mk "0" FType.Number []]) "0" = some (JValue.num 0) := by
  constructor
  · rw [(derive_key_enumeration
      [FieldNode.mk "b" FType.String [], FieldNode.mk "0" FType.String [],
        FieldNode.mk "0" FType.Number []]).1]
    decide
  · rw [(derive_key_enumeration
      [FieldNode.mk "b" FType.String [], FieldNode.mk "0" FType.String [],
        FieldNode.mk "0" FType.Number []]).2 "0" (by decide)]
    decide

/-- C9: `removeField` with an out-of-range index (negative or past the end)
removes nothing and returns the tree unchanged. -/
theorem removeField_out_of_range_noop (t : List FieldNode) (index : Int)
    (h : index < 0 ∨ (t.length : Int) ≤ index) :
    removeField t index = t := by
  rw [removeField]
  refine removeFieldAux_out_of_range t 0 index ?_
  push_cast
  omega

/-- Witness for C9 at index 5 of a one-element tree. -/
theorem removeField_out_of_range_witness :
    removeField [FieldNode.mk "a" FType.String []] (5 : Int) =
      [FieldNode.mk "a" FType.String []] :=
  removeField_out_of_range_noop [FieldNode.mk "a" FType.String []] 5 (by decide)
